import Mathlib

/-!
Shallow embedding of the minimal YAML parser of
`src/scripts/build_system.py` (functions `parse_yaml_minimal`,
`parse_block`, `parse_map`, `parse_list`, `parse_scalar`,
`strip_comment`), together with theorems settling the specification
claims about it.

Python strings are modelled as Lean `String` (operations are defined on
the underlying character list); Python `dict` is modelled as an
insertion-ordered association list; Python exceptions (`BriefError`)
are modelled with `Except String`.  The mutually recursive descent is
given an explicit fuel argument (structural recursion on fuel); the
top-level entry point supplies fuel `2 * tokens.length + 2`, which the
call structure never exhausts (every call strictly decreases the
measure `2 * (length - idx) + rank`).
-/

namespace BuildSystem

/-- Characters Python `str.strip()` / `str.rstrip()` remove (ASCII whitespace). -/
def isPySpace (c : Char) : Bool :=
  c = ' ' || c = '\t' || c = '\n' || c = '\r' || c = '\x0b' || c = '\x0c'

/-- Python `value.rstrip()` on a character list. -/
def pyRstripL (l : List Char) : List Char :=
  (l.reverse.dropWhile isPySpace).reverse

/-- Python `value.strip()` on a character list. -/
def pyStripL (l : List Char) : List Char :=
  pyRstripL (l.dropWhile isPySpace)

/-- Python `value.strip()`. -/
def pyStrip (s : String) : String :=
  ⟨pyStripL s.data⟩

/-- Python `value.rstrip()`. -/
def pyRstrip (s : String) : String :=
  ⟨pyRstripL s.data⟩

/-- Python `value.lstrip(" ")`: drop leading space characters only. -/
def lstripSp (s : String) : String :=
  ⟨s.data.dropWhile (· = ' ')⟩

/-- Python `value.lower()` (ASCII case folding). -/
def pyLower (s : String) : String :=
  ⟨s.data.map Char.toLower⟩

/-- Python `s.startswith(p)`. -/
def pyStartsWith (s p : String) : Bool :=
  p.data.isPrefixOf s.data

/-- Python `s.endswith(p)` for a one-character suffix `c`. -/
def pyEndsWithChar (s : String) (c : Char) : Bool :=
  s.data.getLast? = some c

/-- Python `"\t" in raw`. -/
def containsChar (s : String) (c : Char) : Bool :=
  s.data.contains c

/-- Split a character list at the first occurrence of `c`:
`some (before, after)` when `c` occurs, `none` otherwise. -/
def splitFirst : List Char → Char → Option (List Char × List Char)
  | [], _ => none
  | x :: xs, c =>
    if x = c then some ([], xs)
    else (splitFirst xs c).map (fun p => (x :: p.1, p.2))

/-- Python `s.partition(c)` restricted to the found case:
`some (before, after)` when the separator occurs (`sep` nonempty in
Python terms), `none` when it does not. -/
def pyPartition (s : String) (c : Char) : Option (String × String) :=
  (splitFirst s.data c).map (fun p => (⟨p.1⟩, ⟨p.2⟩))

/-- Python `s[2:]`. -/
def pyDrop2 (s : String) : String :=
  ⟨s.data.drop 2⟩

/-- Python `s[1:-1]`. -/
def pyInner (s : String) : String :=
  ⟨(s.data.drop 1).dropLast⟩

/-- The parsed value tree: the tagged union
`Null | Boolean | Integer | String | Mapping | Sequence`
(Python `None | bool | int | str | dict | list`). -/
inductive Value where
  | null
  | bool (b : Bool)
  | int (n : Int)
  | str (s : String)
  | map (entries : List (String × Value))
  | seq (items : List Value)

/-- Python `mapping[key] = v` on an insertion-ordered `dict`:
replace the value at the first occurrence of `key` keeping its
position, append `(key, v)` when `key` is absent. -/
def pyDictInsert : List (String × Value) → String → Value → List (String × Value)
  | [], k, v => [(k, v)]
  | (k0, v0) :: rest, k, v =>
    if k0 = k then (k, v) :: rest else (k0, v0) :: pyDictInsert rest k v

/-- Python `item.update(child)`: fold every entry of `child` into `item`. -/
def pyDictUpdate (item child : List (String × Value)) : List (String × Value) :=
  child.foldl (fun d p => pyDictInsert d p.1 p.2) item

/-- Python `dict` lookup `d.get(key)`: value at the first matching key. -/
def pyLookup : List (String × Value) → String → Option Value
  | [], _ => none
  | (k0, v0) :: rest, k => if k0 = k then some v0 else pyLookup rest k

/-- The scanner body of `strip_comment` (build_system.py:227-237):
`acc` holds the consumed characters in reverse, `insingle`/`indouble`
the quote state.  On an unquoted hash it returns `value[:idx].rstrip()`
(here: the reversed accumulator, right-stripped); when the input is
exhausted it returns `value.strip()` (here: the whole reversed
accumulator, stripped). -/
def stripCommentAux : List Char → List Char → Bool → Bool → List Char
  | acc, [], _, _ => pyStripL acc.reverse
  | acc, c :: cs, insingle, indouble =>
    if c = '\x27' ∧ indouble = false then
      stripCommentAux (c :: acc) cs (!insingle) indouble
    else if c = '"' ∧ insingle = false then
      stripCommentAux (c :: acc) cs insingle (!indouble)
    else if c = '#' ∧ insingle = false ∧ indouble = false then
      pyRstripL acc.reverse
    else
      stripCommentAux (c :: acc) cs insingle indouble

/-- Embedding of `strip_comment(value)` (build_system.py:227-237). -/
def strip_comment (value : String) : String :=
  ⟨stripCommentAux [] value.data false false⟩

/-- Test for `re.fullmatch(r"-?\d+", value)`: an optional leading minus sign
followed by one or more decimal digits. -/
def matchesIntLit : List Char → Bool
  | '-' :: rest => !rest.isEmpty && rest.all Char.isDigit
  | l => !l.isEmpty && l.all Char.isDigit

/-- Base-10 value of a digit string. -/
def digitsToNat (l : List Char) : Nat :=
  l.foldl (fun n c => n * 10 + (c.toNat - '0'.toNat)) 0

/-- Python `int(value)` on a string matching `-?\d+`. -/
def pyIntVal : List Char → Int
  | '-' :: rest => -(digitsToNat rest : Int)
  | l => (digitsToNat l : Int)

/-- Embedding of `parse_scalar(value)` (build_system.py:205-224).  Total by
construction: every input yields some `Value`.  In this embedding the
integer conversion always succeeds on a string matching the integer
pattern, so the defensive `except ValueError` fallback of the source is
unreachable and is not represented. -/
def parse_scalar (value : String) : Value :=
  if strip_comment value = "" then .str ""
  else if pyLower (strip_comment value) = "true" ∨ pyLower (strip_comment value) = "false" then
    .bool (decide (pyLower (strip_comment value) = "true"))
  else if pyLower (strip_comment value) = "null" ∨ pyLower (strip_comment value) = "none" then
    .null
  else if matchesIntLit (strip_comment value).data = true then
    .int (pyIntVal (strip_comment value).data)
  else if (pyStartsWith (strip_comment value) "\"" = true
           ∧ pyEndsWithChar (strip_comment value) '"' = true)
        ∨ (pyStartsWith (strip_comment value) "\x27" = true
           ∧ pyEndsWithChar (strip_comment value) '\x27' = true) then
    .str (pyInner (strip_comment value))
  else .str (strip_comment value)

/-- One token of the minimal YAML tokenizer:
`(indent, content, line)` (build_system.py:120). -/
structure Token where
  indent : Nat
  content : String
  line : Nat
deriving Repr, DecidableEq

/-- Split a character list at every newline character. -/
def splitLinesL : List Char → List (List Char)
  | [] => [[]]
  | c :: cs =>
    if c = '\n' then [] :: splitLinesL cs
    else
      match splitLinesL cs with
      | [] => [[c]]
      | l :: ls => (c :: l) :: ls

/-- Model of `text.splitlines()`: splitting on newline characters
(the inputs of interest use only `\n` line endings; a final empty
chunk produced by a trailing newline is blank and is filtered by the
tokenizer). -/
def splitLines (s : String) : List String :=
  (splitLinesL s.data).map (fun l => ⟨l⟩)

/-- The tokenizer loop of `parse_yaml_minimal` (build_system.py:110-120):
skip blank lines, then skip comment-only lines, then reject lines
containing a tab, otherwise emit a token. -/
def tokenizeAux : Nat → List String → Except String (List Token)
  | _, [] => .ok []
  | n, raw :: rest =>
    if pyStrip raw = "" then tokenizeAux (n + 1) rest
    else if pyStartsWith (lstripSp raw) "#" then tokenizeAux (n + 1) rest
    else if containsChar raw '\t' then
      .error ("Tabs are not supported in YAML (line " ++ toString n ++ ").")
    else
      match tokenizeAux (n + 1) rest with
      | .error e => .error e
      | .ok toks =>
        .ok ({ indent := raw.length - (lstripSp raw).length
             , content := pyRstrip (lstripSp raw)
             , line := n } :: toks)

/-- Tokenization of a whole text, lines numbered from 1. -/
def tokenize (text : String) : Except String (List Token) :=
  tokenizeAux 1 (splitLines text)

mutual

/-- Embedding of `parse_block(idx, indent)` (build_system.py:125-134), with explicit
fuel.  Past the end it returns `(None, idx)` (Python `None` is the null
Value); an indent mismatch raises; a token starting with the sequence
marker goes to the list parser, anything else to the map parser. -/
def parse_block : Nat → List Token → Nat → Nat → Except String (Value × Nat)
  | 0, _, _, _ => .error "out of fuel"
  | fuel+1, tokens, idx, indent =>
    match tokens.get? idx with
    | none => .ok (.null, idx)
    | some t =>
      if t.indent ≠ indent then
        .error ("Unexpected indentation at line " ++ toString t.line ++ ".")
      else if pyStartsWith t.content "- " then
        match parse_list_aux fuel tokens idx indent [] with
        | .error e => .error e
        | .ok (items, j) => .ok (.seq items, j)
      else
        match parse_map_aux fuel tokens idx indent [] with
        | .error e => .error e
        | .ok (m, j) => .ok (.map m, j)
termination_by structural fuel _ _ _ => fuel

/-- The loop of `parse_map(idx, indent)` (build_system.py:136-156);
`acc` is the accumulated mapping.  Stops (returning the accumulator and
the cursor) when the stream is exhausted or the cursor token's indent
differs from `indent`. -/
def parse_map_aux : Nat → List Token → Nat → Nat → List (String × Value) →
    Except String (List (String × Value) × Nat)
  | 0, _, _, _, _ => .error "out of fuel"
  | fuel+1, tokens, idx, indent, acc =>
    match tokens.get? idx with
    | none => .ok (acc, idx)
    | some t =>
      if t.indent ≠ indent then .ok (acc, idx)
      else if pyStartsWith t.content "- " then
        .error ("Unexpected list item at line " ++ toString t.line ++ ".")
      else
        match pyPartition t.content ':' with
        | none => .error ("Missing \x27:\x27 in mapping at line " ++ toString t.line ++ ".")
        | some (k, v) =>
          if lstripSp v ≠ "" then
            parse_map_aux fuel tokens (idx + 1) indent
              (pyDictInsert acc (pyStrip k) (parse_scalar (lstripSp v)))
          else
            match tokens.get? (idx + 1) with
            | none =>
              parse_map_aux fuel tokens (idx + 1) indent (pyDictInsert acc (pyStrip k) .null)
            | some t2 =>
              if t2.indent ≤ indent then
                parse_map_aux fuel tokens (idx + 1) indent (pyDictInsert acc (pyStrip k) .null)
              else
                match parse_block fuel tokens (idx + 1) t2.indent with
                | .error e => .error e
                | .ok (child, j) =>
                  parse_map_aux fuel tokens j indent (pyDictInsert acc (pyStrip k) child)
termination_by structural fuel _ _ _ _ => fuel

/-- The loop of `parse_list(idx, indent)` (build_system.py:158-194);
`acc` is the accumulated sequence.  Stops when the stream is exhausted,
the cursor token's indent differs from `indent`, or the cursor token
does not start with the sequence marker. -/
def parse_list_aux : Nat → List Token → Nat → Nat → List Value →
    Except String (List Value × Nat)
  | 0, _, _, _, _ => .error "out of fuel"
  | fuel+1, tokens, idx, indent, acc =>
    match tokens.get? idx with
    | none => .ok (acc, idx)
    | some t =>
      if t.indent ≠ indent then .ok (acc, idx)
      else if pyStartsWith t.content "- " = false then .ok (acc, idx)
      else if pyDrop2 t.content = "" then
        match tokens.get? (idx + 1) with
        | none => parse_list_aux fuel tokens (idx + 1) indent (acc ++ [.null])
        | some t2 =>
          if t2.indent ≤ indent then
            parse_list_aux fuel tokens (idx + 1) indent (acc ++ [.null])
          else
            match parse_block fuel tokens (idx + 1) t2.indent with
            | .error e => .error e
            | .ok (child, j) => parse_list_aux fuel tokens j indent (acc ++ [child])
      else
        match pyPartition (pyDrop2 t.content) ':' with
        | some (k, v) =>
          match (if pyStrip v ≠ "" then
                   Except.ok ([(pyStrip k, parse_scalar (pyStrip v))], idx + 1)
                 else
                   match tokens.get? (idx + 1) with
                   | none => Except.ok ([(pyStrip k, Value.null)], idx + 1)
                   | some t2 =>
                     if t2.indent > indent then
                       match parse_block fuel tokens (idx + 1) t2.indent with
                       | .error e => Except.error e
                       | .ok (child, j) => Except.ok ([(pyStrip k, child)], j)
                     else Except.ok ([(pyStrip k, Value.null)], idx + 1) :
                   Except String (List (String × Value) × Nat)) with
          | .error e => .error e
          | .ok (item, j1) =>
            match tokens.get? j1 with
            | some t3 =>
              if t3.indent > indent then
                match parse_map_aux fuel tokens j1 t3.indent [] with
                | .error e => .error e
                | .ok (child, j2) =>
                  parse_list_aux fuel tokens j2 indent
                    (acc ++ [.map (pyDictUpdate item child)])
              else
                parse_list_aux fuel tokens j1 indent (acc ++ [.map item])
            | none =>
              parse_list_aux fuel tokens j1 indent (acc ++ [.map item])
        | none =>
          parse_list_aux fuel tokens (idx + 1) indent
            (acc ++ [parse_scalar (pyStrip (pyDrop2 t.content))])
termination_by structural fuel _ _ _ _ => fuel

end

/-- Entry point of the map parser: `parse_map(idx, indent)` starts with an empty mapping. -/
def parse_map (fuel : Nat) (tokens : List Token) (idx indent : Nat) :
    Except String (List (String × Value) × Nat) :=
  parse_map_aux fuel tokens idx indent []

/-- Entry point of the list parser: `parse_list(idx, indent)` starts with an empty sequence. -/
def parse_list (fuel : Nat) (tokens : List Token) (idx indent : Nat) :
    Except String (List Value × Nat) :=
  parse_list_aux fuel tokens idx indent []

/-- Fuel supplied to the recursive descent: strictly more than the
measure `2 * (tokens.length - idx) + 2` of the top-level call, which
every recursive call strictly decreases, so it is never exhausted. -/
def fuelFor (tokens : List Token) : Nat :=
  2 * tokens.length + 2

/-- Embedding of `parse_yaml_minimal(text)` (build_system.py:109-202): tokenize,
parse the top-level block at the first token's indent, reject leftover
tokens, and require a mapping at the top level.  (The `none` fallback
of the leftover-token lookup is unreachable: the parser's final cursor
never exceeds the token count.) -/
def parse_yaml_minimal (text : String) : Except String Value :=
  match tokenize text with
  | .error e => .error e
  | .ok tokens =>
    match tokens with
    | [] => .ok (.map [])
    | t0 :: _ =>
      match parse_block (fuelFor tokens) tokens 0 t0.indent with
      | .error e => .error e
      | .ok (data, next_idx) =>
        if next_idx ≠ tokens.length then
          match tokens.get? next_idx with
          | some t => .error ("Unexpected content at line " ++ toString t.line ++ ".")
          | none => .error "Unexpected content."
        else
          match data with
          | .map m => .ok (.map m)
          | _ => .error "Brief YAML must be a mapping at the top level."

/-!
Specification-side definitions, phrased from the claims rather than
from the source: the quote-state scan that the comment-stripping claim
describes, and the strict reading of a value "fully wrapped in a
matching pair of quotes".
-/

/-- One step of the quote-state tracking described by the spec: a quote
character toggles its own state only when the other kind of quote is
not active; every other character leaves the state unchanged. -/
def qstep (st : Bool × Bool) (c : Char) : Bool × Bool :=
  if c = '\x27' ∧ st.2 = false then (!st.1, st.2)
  else if c = '"' ∧ st.1 = false then (st.1, !st.2)
  else st

/-- Quote state `(insingle, indouble)` after scanning a character list
from the initial state `(false, false)`. -/
def qstate (l : List Char) : Bool × Bool :=
  l.foldl qstep (false, false)

/-- Position `i` holds a hash character that is outside every quoted
run, starting the scan from state `st`. -/
def unquotedHashFromAt (st : Bool × Bool) (l : List Char) (i : Nat) : Prop :=
  l.get? i = some '#' ∧ (l.take i).foldl qstep st = (false, false)

/-- Position `i` of the value holds a hash character outside every
quoted run (the comment start the spec describes). -/
def unquotedHashAt (l : List Char) (i : Nat) : Prop :=
  unquotedHashFromAt (false, false) l i

/-- Index of the first unquoted hash when scanning from state
`(sg, db)`, mirroring the left-to-right stateful scan the spec
describes. -/
def firstHashFrom : List Char → Bool → Bool → Option Nat
  | [], _, _ => none
  | c :: cs, sg, db =>
    if c = '\x27' ∧ db = false then (firstHashFrom cs (!sg) db).map (· + 1)
    else if c = '"' ∧ sg = false then (firstHashFrom cs sg (!db)).map (· + 1)
    else if c = '#' ∧ sg = false ∧ db = false then some 0
    else (firstHashFrom cs sg db).map (· + 1)

/-- Index of the first hash character encountered while not inside any
quote. -/
def firstUnquotedHash (l : List Char) : Option Nat :=
  firstHashFrom l false false

/-- Strict reading of the claim's quote-stripping category: the value
is fully wrapped in a matching pair of single or double quotes, a pair
being two quote characters, one at each end of a value of length at
least two. -/
def wrappedPairStrict (v : String) : Prop :=
  2 ≤ v.data.length ∧
    ((v.data.head? = some '"' ∧ v.data.getLast? = some '"')
     ∨ (v.data.head? = some '\x27' ∧ v.data.getLast? = some '\x27'))

instance (v : String) : Decidable (wrappedPairStrict v) := by
  unfold wrappedPairStrict; infer_instance

/-- Amended quote category: the value begins and ends with the same
quote character, exactly as the source tests it with `startswith` and
`endswith`; a value of length one consisting of a single quote
character also satisfies it. -/
@[reducible] def startsEndsSameQuote (v : String) : Prop :=
  (pyStartsWith v "\"" = true ∧ pyEndsWithChar v '"' = true)
  ∨ (pyStartsWith v "\x27" = true ∧ pyEndsWithChar v '\x27' = true)


/-- Correspondence between the source scanner of `strip_comment` and the
take-based formulation: starting in state `(sg, db)` with consumed prefix
`acc`, the scanner truncates at the first unquoted hash of the remainder
and right-trims, or trims the whole value when no such hash exists. -/
theorem stripCommentAux_spec : ∀ (l acc : List Char) (sg db : Bool),
    stripCommentAux acc l sg db =
      match firstHashFrom l sg db with
      | some k => pyRstripL (acc.reverse ++ l.take k)
      | none => pyStripL (acc.reverse ++ l) := by
  intro l
  induction l with
  | nil =>
    intro acc sg db
    simp [stripCommentAux, firstHashFrom]
  | cons c cs ih =>
    intro acc sg db
    by_cases h1 : c = '\x27' ∧ db = false
    · simp only [stripCommentAux, firstHashFrom, if_pos h1, ih]
      cases hf : firstHashFrom cs (!sg) db <;>
        simp [List.take_succ_cons, List.append_assoc]
    · by_cases h2 : c = '"' ∧ sg = false
      · simp only [stripCommentAux, firstHashFrom, if_neg h1, if_pos h2, ih]
        cases hf : firstHashFrom cs sg (!db) <;>
          simp [List.take_succ_cons, List.append_assoc]
      · by_cases h3 : c = '#' ∧ sg = false ∧ db = false
        · simp only [stripCommentAux, firstHashFrom, if_neg h1, if_neg h2, if_pos h3]
          simp
        · simp only [stripCommentAux, firstHashFrom, if_neg h1, if_neg h2, if_neg h3, ih]
          cases hf : firstHashFrom cs sg db <;>
            simp [List.take_succ_cons, List.append_assoc]

/-- Position zero holds an unquoted hash iff the head is a hash and the
starting state is outside both quote kinds. -/
theorem unquotedHashFromAt_zero (st : Bool × Bool) (c : Char) (cs : List Char) :
    unquotedHashFromAt st (c :: cs) 0 ↔ (c = '#' ∧ st = (false, false)) := by
  simp [unquotedHashFromAt]

/-- Shifting an unquoted-hash position across the head character steps
the quote state by `qstep`. -/
theorem unquotedHashFromAt_succ (st : Bool × Bool) (c : Char) (cs : List Char) (j : Nat) :
    unquotedHashFromAt st (c :: cs) (j + 1) ↔ unquotedHashFromAt (qstep st c) cs j := by
  simp [unquotedHashFromAt, List.take_succ_cons]

/-- A single-quote character outside a double-quoted run toggles the
single-quote state. -/
theorem qstep_single (sg db : Bool) (c : Char) (h : c = '\x27' ∧ db = false) :
    qstep (sg, db) c = (!sg, db) := by
  simp [qstep, h]

/-- A double-quote character outside a single-quoted run toggles the
double-quote state. -/
theorem qstep_double (sg db : Bool) (c : Char)
    (h1 : ¬ (c = '\x27' ∧ db = false)) (h2 : c = '"' ∧ sg = false) :
    qstep (sg, db) c = (sg, !db) := by
  simp only [qstep]
  rw [if_neg h1, if_pos h2]

/-- Any other character leaves the quote state unchanged. -/
theorem qstep_other (sg db : Bool) (c : Char)
    (h1 : ¬ (c = '\x27' ∧ db = false)) (h2 : ¬ (c = '"' ∧ sg = false)) :
    qstep (sg, db) c = (sg, db) := by
  simp only [qstep]
  rw [if_neg h1, if_neg h2]

/-- The index returned by the scan holds a hash outside every quoted
run. -/
theorem firstHashFrom_some_hash : ∀ (l : List Char) (sg db : Bool) (i : Nat),
    firstHashFrom l sg db = some i → unquotedHashFromAt (sg, db) l i := by
  intro l
  induction l with
  | nil => intro sg db i h; simp [firstHashFrom] at h
  | cons c cs ih =>
    intro sg db i h
    by_cases h1 : c = '\x27' ∧ db = false
    · rw [firstHashFrom, if_pos h1] at h
      obtain ⟨j, hj, rfl⟩ := Option.map_eq_some'.mp h
      rw [unquotedHashFromAt_succ, qstep_single sg db c h1]
      exact ih (!sg) db j hj
    · by_cases h2 : c = '"' ∧ sg = false
      · rw [firstHashFrom, if_neg h1, if_pos h2] at h
        obtain ⟨j, hj, rfl⟩ := Option.map_eq_some'.mp h
        rw [unquotedHashFromAt_succ, qstep_double sg db c h1 h2]
        exact ih sg (!db) j hj
      · by_cases h3 : c = '#' ∧ sg = false ∧ db = false
        · rw [firstHashFrom, if_neg h1, if_neg h2, if_pos h3] at h
          obtain rfl : (0 : Nat) = i := Option.some.inj h
          rw [unquotedHashFromAt_zero]
          exact ⟨h3.1, by rw [h3.2.1, h3.2.2]⟩
        · rw [firstHashFrom, if_neg h1, if_neg h2, if_neg h3] at h
          obtain ⟨j, hj, rfl⟩ := Option.map_eq_some'.mp h
          rw [unquotedHashFromAt_succ, qstep_other sg db c h1 h2]
          exact ih sg db j hj

/-- When the head does not satisfy the unquoted-hash test, position
zero is not an unquoted hash. -/
theorem not_hash_zero (sg db : Bool) (c : Char) (cs : List Char)
    (h3 : ¬ (c = '#' ∧ sg = false ∧ db = false)) :
    ¬ unquotedHashFromAt (sg, db) (c :: cs) 0 := by
  rw [unquotedHashFromAt_zero]
  rintro ⟨rfl, hst⟩
  exact h3 ⟨rfl, congrArg Prod.fst hst, congrArg Prod.snd hst⟩

/-- The index returned by the scan is the least unquoted-hash
position. -/
theorem firstHashFrom_least : ∀ (l : List Char) (sg db : Bool) (i : Nat),
    firstHashFrom l sg db = some i →
      ∀ j, j < i → ¬ unquotedHashFromAt (sg, db) l j := by
  intro l
  induction l with
  | nil => intro sg db i h; simp [firstHashFrom] at h
  | cons c cs ih =>
    intro sg db i h j hj
    by_cases h1 : c = '\x27' ∧ db = false
    · rw [firstHashFrom, if_pos h1] at h
      obtain ⟨i0, hi0, rfl⟩ := Option.map_eq_some'.mp h
      match j with
      | 0 =>
        exact not_hash_zero sg db c cs (fun hc => by
          have ha : c = '#' := hc.1
          have hb : c = '\x27' := h1.1
          simp_all)
      | j0 + 1 =>
        rw [unquotedHashFromAt_succ, qstep_single sg db c h1]
        exact ih (!sg) db i0 hi0 j0 (by omega)
    · by_cases h2 : c = '"' ∧ sg = false
      · rw [firstHashFrom, if_neg h1, if_pos h2] at h
        obtain ⟨i0, hi0, rfl⟩ := Option.map_eq_some'.mp h
        match j with
        | 0 =>
          exact not_hash_zero sg db c cs (fun hc => by
            have ha : c = '#' := hc.1
            have hb : c = '"' := h2.1
            simp_all)
        | j0 + 1 =>
          rw [unquotedHashFromAt_succ, qstep_double sg db c h1 h2]
          exact ih sg (!db) i0 hi0 j0 (by omega)
      · by_cases h3 : c = '#' ∧ sg = false ∧ db = false
        · rw [firstHashFrom, if_neg h1, if_neg h2, if_pos h3] at h
          obtain rfl : (0 : Nat) = i := Option.some.inj h
          omega
        · rw [firstHashFrom, if_neg h1, if_neg h2, if_neg h3] at h
          obtain ⟨i0, hi0, rfl⟩ := Option.map_eq_some'.mp h
          match j with
          | 0 => exact not_hash_zero sg db c cs h3
          | j0 + 1 =>
            rw [unquotedHashFromAt_succ, qstep_other sg db c h1 h2]
            exact ih sg db i0 hi0 j0 (by omega)

/-- When the scan returns nothing, no position holds an unquoted
hash. -/
theorem firstHashFrom_none : ∀ (l : List Char) (sg db : Bool),
    firstHashFrom l sg db = none → ∀ i, ¬ unquotedHashFromAt (sg, db) l i := by
  intro l
  induction l with
  | nil => intro sg db _ i; simp [unquotedHashFromAt]
  | cons c cs ih =>
    intro sg db h i
    by_cases h1 : c = '\x27' ∧ db = false
    · rw [firstHashFrom, if_pos h1] at h
      have hcs := Option.map_eq_none'.mp h
      match i with
      | 0 =>
        exact not_hash_zero sg db c cs (fun hc => by
          have ha : c = '#' := hc.1
          have hb : c = '\x27' := h1.1
          simp_all)
      | j + 1 =>
        rw [unquotedHashFromAt_succ, qstep_single sg db c h1]
        exact ih (!sg) db hcs j
    · by_cases h2 : c = '"' ∧ sg = false
      · rw [firstHashFrom, if_neg h1, if_pos h2] at h
        have hcs := Option.map_eq_none'.mp h
        match i with
        | 0 =>
          exact not_hash_zero sg db c cs (fun hc => by
            have ha : c = '#' := hc.1
            have hb : c = '"' := h2.1
            simp_all)
        | j + 1 =>
          rw [unquotedHashFromAt_succ, qstep_double sg db c h1 h2]
          exact ih sg (!db) hcs j
      · by_cases h3 : c = '#' ∧ sg = false ∧ db = false
        · rw [firstHashFrom, if_neg h1, if_neg h2, if_pos h3] at h
          exact absurd h (by simp)
        · rw [firstHashFrom, if_neg h1, if_neg h2, if_neg h3] at h
          have hcs := Option.map_eq_none'.mp h
          match i with
          | 0 => exact not_hash_zero sg db c cs h3
          | j + 1 =>
            rw [unquotedHashFromAt_succ, qstep_other sg db c h1 h2]
            exact ih sg db hcs j

/-- C6: `strip_comment` scans its input left to right tracking single-
and double-quote state, where a quote character toggles its own state
only when the other kind of quote is not active and escaped quotes get
no special handling; at the first hash encountered while not inside any
quote it returns the prefix before that hash with trailing whitespace
removed, and if no unquoted hash occurs it returns the whole value
trimmed.  The second conjunct characterises the scan's result as the
least position holding a hash whose preceding quote state is inactive. -/
theorem spec_c6_strip_comment (s : String) :
    (strip_comment s =
      match firstUnquotedHash s.data with
      | some i => (⟨pyRstripL (s.data.take i)⟩ : String)
      | none => ⟨pyStripL s.data⟩) ∧
    (∀ i, firstUnquotedHash s.data = some i ↔
      (unquotedHashAt s.data i ∧ ∀ j, j < i → ¬ unquotedHashAt s.data j)) := by
  constructor
  · have h := stripCommentAux_spec s.data [] false false
    simp only [List.reverse_nil, List.nil_append] at h
    unfold strip_comment firstUnquotedHash
    cases hf : firstHashFrom s.data false false with
    | none => rw [hf] at h; rw [h]
    | some i => rw [hf] at h; rw [h]
  · intro i
    constructor
    · intro h
      exact ⟨firstHashFrom_some_hash s.data false false i h,
             firstHashFrom_least s.data false false i h⟩
    · rintro ⟨hi, hleast⟩
      cases hf : firstUnquotedHash s.data with
      | none => exact absurd hi (firstHashFrom_none s.data false false hf i)
      | some i2 =>
        have h2 := firstHashFrom_some_hash s.data false false i2 hf
        have hl2 := firstHashFrom_least s.data false false i2 hf
        rcases Nat.lt_trichotomy i i2 with h | h | h
        · exact absurd hi (hl2 i h)
        · rw [h]
        · exact absurd h2 (hleast i2 h)

/-- Witness for C6 at a concrete input containing a quoted hash. -/
theorem spec_c6_witness :
    strip_comment "a\x27#\x27b # real" = "a\x27#\x27b" ∧
    unquotedHashAt "a\x27#\x27b # real".data 6 := by
  have h := spec_c6_strip_comment "a\x27#\x27b # real"
  exact ⟨h.1.trans rfl, ((h.2 6).mp rfl).1⟩

/-- Inserting the same key twice into a Python-style dict leaves the
value of the last insertion. -/
theorem pyLookup_insert_insert : ∀ (m : List (String × Value)) (k : String) (a b : Value),
    pyLookup (pyDictInsert (pyDictInsert m k a) k b) k = some b := by
  intro m k a b
  induction m with
  | nil => simp [pyDictInsert, pyLookup]
  | cons p rest ih =>
    obtain ⟨k0, v0⟩ := p
    by_cases h : k0 = k
    · simp [pyDictInsert, pyLookup, h]
    · simp [pyDictInsert, pyLookup, h, ih]

/-- C5: a mapping block with two entries of the same key at the same
indent parses without error and the resulting Mapping holds the value
of the last occurrence; in general the dict-insertion the parser uses
silently overwrites, keeping the last value for a key. -/
theorem spec_c5_duplicate_keys :
    parse_yaml_minimal "name: A\nname: B" = .ok (.map [("name", .str "B")]) ∧
    ∀ (m : List (String × Value)) (k : String) (a b : Value),
      pyLookup (pyDictInsert (pyDictInsert m k a) k b) k = some b :=
  ⟨rfl, pyLookup_insert_insert⟩

/-- C3 counterexample: the single-character value consisting of one
double-quote character is not wrapped in a matching pair of quotes, so
the claim's final category predicts the trimmed string itself, but the
code strips the lone quote and yields the empty string. -/
theorem spec_c3_counterexample :
    parse_scalar "\"" = Value.str "" ∧ strip_comment "\"" = "\"" ∧
    ¬ wrappedPairStrict "\"" ∧ Value.str "" ≠ Value.str "\"" := by
  refine ⟨rfl, rfl, by decide, ?_⟩
  intro h
  injection h with h2
  exact absurd h2 (by decide)

/-- C3 (amended): scalar coercion is total by construction and
classifies the comment-stripped value in order: empty yields the empty
string; case-insensitive true/false yield Booleans; case-insensitive
null/none yield Null; an optional minus sign followed by digits yields
the base-10 Integer; a value that begins and ends with the same quote
character (including the one-character value of a single quote) yields
the inner content with first and last characters removed; any other
value yields the comment-stripped string itself. -/
theorem spec_c3_scalar_coercion (s : String) :
    (strip_comment s = "" → parse_scalar s = .str "") ∧
    (strip_comment s ≠ "" → pyLower (strip_comment s) = "true" →
      parse_scalar s = .bool true) ∧
    (strip_comment s ≠ "" → pyLower (strip_comment s) = "false" →
      parse_scalar s = .bool false) ∧
    (strip_comment s ≠ "" →
      pyLower (strip_comment s) ≠ "true" → pyLower (strip_comment s) ≠ "false" →
      (pyLower (strip_comment s) = "null" ∨ pyLower (strip_comment s) = "none") →
      parse_scalar s = .null) ∧
    (strip_comment s ≠ "" →
      pyLower (strip_comment s) ≠ "true" → pyLower (strip_comment s) ≠ "false" →
      pyLower (strip_comment s) ≠ "null" → pyLower (strip_comment s) ≠ "none" →
      matchesIntLit (strip_comment s).data = true →
      parse_scalar s = .int (pyIntVal (strip_comment s).data)) ∧
    (strip_comment s ≠ "" →
      pyLower (strip_comment s) ≠ "true" → pyLower (strip_comment s) ≠ "false" →
      pyLower (strip_comment s) ≠ "null" → pyLower (strip_comment s) ≠ "none" →
      matchesIntLit (strip_comment s).data = false →
      startsEndsSameQuote (strip_comment s) →
      parse_scalar s = .str (pyInner (strip_comment s))) ∧
    (strip_comment s ≠ "" →
      pyLower (strip_comment s) ≠ "true" → pyLower (strip_comment s) ≠ "false" →
      pyLower (strip_comment s) ≠ "null" → pyLower (strip_comment s) ≠ "none" →
      matchesIntLit (strip_comment s).data = false →
      ¬ startsEndsSameQuote (strip_comment s) →
      parse_scalar s = .str (strip_comment s)) := by
  refine ⟨?_, ?_, ?_, ?_, ?_, ?_, ?_⟩
  · intro h
    unfold parse_scalar
    rw [if_pos h]
  · intro hne h
    unfold parse_scalar
    rw [if_neg hne, if_pos (Or.inl h), h]
    simp
  · intro hne h
    unfold parse_scalar
    rw [if_neg hne, if_pos (Or.inr h), h]
    simp
  · intro hne ht hf h
    unfold parse_scalar
    rw [if_neg hne, if_neg (by rintro (h2 | h2) <;> simp_all), if_pos h]
  · intro hne ht hf hn hn2 h
    unfold parse_scalar
    rw [if_neg hne, if_neg (by rintro (h2 | h2) <;> simp_all),
        if_neg (by rintro (h2 | h2) <;> simp_all), if_pos h]
  · intro hne ht hf hn hn2 hint h
    unfold parse_scalar
    rw [if_neg hne, if_neg (by rintro (h2 | h2) <;> simp_all),
        if_neg (by rintro (h2 | h2) <;> simp_all), if_neg (by simp_all),
        if_pos h]
  · intro hne ht hf hn hn2 hint h
    unfold parse_scalar
    rw [if_neg hne, if_neg (by rintro (h2 | h2) <;> simp_all),
        if_neg (by rintro (h2 | h2) <;> simp_all), if_neg (by simp_all),
        if_neg h]

/-- Witness for C3 at concrete inputs of the Boolean, string, integer
and quoted categories. -/
theorem spec_c3_witness :
    parse_scalar "TRUE" = .bool true ∧ parse_scalar "12a" = .str "12a" ∧
    parse_scalar "-5" = .int (-5) ∧ parse_scalar "\"hi\"" = .str "hi" := by
  refine ⟨(spec_c3_scalar_coercion "TRUE").2.1 (by decide) rfl,
          (spec_c3_scalar_coercion "12a").2.2.2.2.2.2 (by decide) (by decide)
            (by decide) (by decide) (by decide) rfl (by decide),
          (spec_c3_scalar_coercion "-5").2.2.2.2.1 (by decide) (by decide)
            (by decide) (by decide) (by decide) rfl,
          (spec_c3_scalar_coercion "\"hi\"").2.2.2.2.2.1 (by decide) (by decide)
            (by decide) (by decide) (by decide) rfl (by decide)⟩


/-- C7: the Block Dispatcher returns a null result with the cursor
unchanged when the cursor is past the end of the token sequence; raises
an unexpected-indentation error citing the token's line when the token
at the cursor has an indent different from the expected one; and
otherwise delegates to the List Parser at that indent when the content
begins with the sequence marker, or to the Map Parser otherwise. -/
theorem spec_c7_parse_block (fuel : Nat) (tokens : List Token) (idx indent : Nat) :
    (tokens.length ≤ idx → parse_block (fuel + 1) tokens idx indent = .ok (.null, idx)) ∧
    (∀ t, tokens.get? idx = some t → t.indent ≠ indent →
      parse_block (fuel + 1) tokens idx indent =
        .error ("Unexpected indentation at line " ++ toString t.line ++ ".")) ∧
    (∀ t, tokens.get? idx = some t → t.indent = indent →
      pyStartsWith t.content "- " = true →
      parse_block (fuel + 1) tokens idx indent =
        match parse_list_aux fuel tokens idx indent [] with
        | .error e => .error e
        | .ok (items, j) => .ok (.seq items, j)) ∧
    (∀ t, tokens.get? idx = some t → t.indent = indent →
      pyStartsWith t.content "- " = false →
      parse_block (fuel + 1) tokens idx indent =
        match parse_map_aux fuel tokens idx indent [] with
        | .error e => .error e
        | .ok (m, j) => .ok (.map m, j)) := by
  refine ⟨?_, ?_, ?_, ?_⟩
  · intro h
    rw [parse_block, List.get?_eq_none.mpr h]
  · intro t hg hne
    simp only [parse_block, hg]
    rw [if_pos hne]
  · intro t hg he hsw
    simp only [parse_block, hg]
    rw [if_neg (fun hc => hc he), if_pos hsw]
  · intro t hg he hsw
    simp only [parse_block, hg]
    rw [if_neg (fun hc => hc he), if_neg (by simp [hsw])]

/-- C2: in the Map Parser, for an entry whose remainder after the first
colon is empty, the cursor advances by one and then: when no further
token exists or the next token's indent is at most the current indent,
the key is mapped to Null; otherwise the Block Dispatcher is invoked at
the next token's deeper indent, the key is mapped to the nested Value it
returns, and the loop resumes from the returned cursor. -/
theorem spec_c2_deferred_map_value (fuel : Nat) (tokens : List Token) (idx indent : Nat)
    (acc : List (String × Value)) (t : Token) (k v : String)
    (hg : tokens.get? idx = some t) (he : t.indent = indent)
    (hsw : pyStartsWith t.content "- " = false)
    (hp : pyPartition t.content ':' = some (k, v))
    (hv : lstripSp v = "") :
    ((tokens.get? (idx + 1) = none ∨
        ∃ t2, tokens.get? (idx + 1) = some t2 ∧ t2.indent ≤ indent) →
      parse_map_aux (fuel + 1) tokens idx indent acc =
        parse_map_aux fuel tokens (idx + 1) indent (pyDictInsert acc (pyStrip k) .null)) ∧
    (∀ t2, tokens.get? (idx + 1) = some t2 → indent < t2.indent →
      parse_map_aux (fuel + 1) tokens idx indent acc =
        match parse_block fuel tokens (idx + 1) t2.indent with
        | .error e => .error e
        | .ok (child, j) =>
          parse_map_aux fuel tokens j indent (pyDictInsert acc (pyStrip k) child)) := by
  constructor
  · intro hnext
    simp only [parse_map_aux, hg, hp]
    rw [if_neg (fun hc => hc he), if_neg (by simp [hsw]), if_neg (fun hc => hc hv)]
    rcases hnext with hn | ⟨t2, hg2, hle⟩
    · rw [hn]
    · simp only [hg2]
      rw [if_pos hle]
  · intro t2 hg2 hlt
    simp only [parse_map_aux, hg, hp]
    rw [if_neg (fun hc => hc he), if_neg (by simp [hsw]), if_neg (fun hc => hc hv)]
    simp only [hg2]
    rw [if_neg (Nat.not_le.mpr hlt)]

/-- C1: the two-line input of a list item with an inline pair followed
by a deeper sibling key parses to a single-element Sequence holding the
merged Mapping; in general, once a list item's inline base key is
established, a following token at a strictly deeper indent makes the
List Parser invoke the Map Parser at that indent and merge every
returned key into the item's Mapping.  The map parser of this embedding
returns a Mapping by construction, so the expected-mapping-for-
continuation failure of the source is unreachable. -/
theorem spec_c1_list_item_continuation :
    (tokenize "- a: 1\n    b: 2" = .ok [⟨0, "- a: 1", 1⟩, ⟨4, "b: 2", 2⟩] ∧
     parse_block 6 [⟨0, "- a: 1", 1⟩, ⟨4, "b: 2", 2⟩] 0 0 =
       .ok (.seq [.map [("a", .int 1), ("b", .int 2)]], 2)) ∧
    (∀ (fuel : Nat) (tokens : List Token) (idx indent : Nat) (acc : List Value)
       (t : Token) (k v : String) (t2 : Token),
      tokens.get? idx = some t → t.indent = indent →
      pyStartsWith t.content "- " = true →
      pyDrop2 t.content ≠ "" →
      pyPartition (pyDrop2 t.content) ':' = some (k, v) →
      pyStrip v ≠ "" →
      tokens.get? (idx + 1) = some t2 → indent < t2.indent →
      parse_list_aux (fuel + 1) tokens idx indent acc =
        match parse_map_aux fuel tokens (idx + 1) t2.indent [] with
        | .error e => .error e
        | .ok (child, j2) =>
          parse_list_aux fuel tokens j2 indent
            (acc ++ [.map (pyDictUpdate [(pyStrip k, parse_scalar (pyStrip v))] child)])) := by
  refine ⟨⟨rfl, rfl⟩, ?_⟩
  intro fuel tokens idx indent acc t k v t2 hg he hsw hne hp hv hg2 hlt
  simp only [parse_list_aux, hg, hp]
  rw [if_neg (fun hc => hc he), if_neg (by simp [hsw]), if_neg hne, if_pos hv]
  simp only [hg2]
  rw [if_pos hlt]

/-- A tab-containing line that survives blank and comment-only
filtering makes the tokenizer fail with a message citing its line
number, provided every earlier line is blank, comment-only, or
tab-free. -/
theorem tokenizeAux_tab_error : ∀ (pre : List String) (n : Nat) (raw : String) (post : List String),
    (∀ l ∈ pre, pyStrip l = "" ∨ pyStartsWith (lstripSp l) "#" = true ∨
      containsChar l '\t' = false) →
    pyStrip raw ≠ "" →
    pyStartsWith (lstripSp raw) "#" = false →
    containsChar raw '\t' = true →
    tokenizeAux n (pre ++ raw :: post) =
      .error ("Tabs are not supported in YAML (line " ++ toString (n + pre.length) ++ ").") := by
  intro pre
  induction pre with
  | nil =>
    intro n raw post _ h1 h2 h3
    simp only [List.nil_append, List.length_nil, Nat.add_zero]
    rw [tokenizeAux, if_neg h1, if_neg (by simp [h2]), if_pos h3]
  | cons l pre ih =>
    intro n raw post hpre h1 h2 h3
    have hl := hpre l (List.mem_cons_self l pre)
    have hrest := ih (n + 1) raw post (fun x hx => hpre x (List.mem_cons_of_mem l hx)) h1 h2 h3
    have hlen : n + 1 + pre.length = n + (l :: pre).length := by
      simp [List.length_cons]; omega
    rw [hlen] at hrest
    simp only [List.cons_append]
    by_cases hb : pyStrip l = ""
    · rw [tokenizeAux, if_pos hb, hrest]
    · rcases hl with hb2 | hc | hnt
      · exact absurd hb2 hb
      · rw [tokenizeAux, if_neg hb, if_pos hc, hrest]
      · rw [tokenizeAux, if_neg hb]
        by_cases hc : pyStartsWith (lstripSp l) "#" = true
        · rw [if_pos hc, hrest]
        · rw [if_neg hc, if_neg (by simp [hnt]), hrest]

/-- C4 (amended): tokenization fails with a tabs-not-supported error
embedding the offending line's 1-based number for every line that
contains a tab and survives the blank-line and comment-only filtering;
the tab check runs after those filters, so a comment-only line is
skipped before the tab check can fire. -/
theorem spec_c4_amended :
    (∀ (text : String) (pre : List String) (raw : String) (post : List String),
      splitLines text = pre ++ raw :: post →
      (∀ l ∈ pre, pyStrip l = "" ∨ pyStartsWith (lstripSp l) "#" = true ∨
        containsChar l '\t' = false) →
      pyStrip raw ≠ "" →
      pyStartsWith (lstripSp raw) "#" = false →
      containsChar raw '\t' = true →
      tokenize text =
        .error ("Tabs are not supported in YAML (line " ++ toString (pre.length + 1) ++ ").")) ∧
    (∀ (n : Nat) (raw : String) (rest : List String),
      pyStrip raw ≠ "" → pyStartsWith (lstripSp raw) "#" = true →
      tokenizeAux n (raw :: rest) = tokenizeAux (n + 1) rest) := by
  constructor
  · intro text pre raw post hsplit hpre h1 h2 h3
    rw [tokenize, hsplit, tokenizeAux_tab_error pre 1 raw post hpre h1 h2 h3,
        Nat.add_comm 1 pre.length]
  · intro n raw rest h1 h2
    rw [tokenizeAux, if_neg h1, if_pos h2]

/-- C4 counterexample: a comment-only line containing a tab produces no
error; the whole input tokenizes to the empty token list and parses to
the empty mapping, contradicting the claim that the tab check precedes
comment filtering. -/
theorem spec_c4_counterexample :
    containsChar "#\tx" '\t' = true ∧ pyStrip "#\tx" ≠ "" ∧
    tokenize "#\tx" = .ok [] ∧ parse_yaml_minimal "#\tx" = .ok (.map []) :=
  ⟨rfl, by decide, rfl, rfl⟩

/-- Witness for C4 at a tab on a real line and a tab inside a
comment-only line. -/
theorem spec_c4_witness :
    tokenize "a: 1\n\tb" = .error "Tabs are not supported in YAML (line 2)." ∧
    tokenizeAux 3 ["#\tc"] = tokenizeAux 4 [] := by
  constructor
  · exact (spec_c4_amended.1 "a: 1\n\tb" ["a: 1"] "\tb" [] rfl
      (by intro l hl; simp at hl; subst hl; right; right; decide)
      (by decide) (by decide) (by decide)).trans rfl
  · exact spec_c4_amended.2 3 "#\tc" [] (by decide) (by decide)

/-- Witness for C2 at a deferred entry with and without a deeper
block. -/
theorem spec_c2_witness :
    parse_map_aux 4 [⟨0, "use_worktrees:", 1⟩] 0 0 [] =
      parse_map_aux 3 [⟨0, "use_worktrees:", 1⟩] 1 0 [("use_worktrees", .null)] ∧
    parse_map_aux 6 [⟨0, "k:", 1⟩, ⟨2, "a: 1", 2⟩] 0 0 [] =
      match parse_block 5 [⟨0, "k:", 1⟩, ⟨2, "a: 1", 2⟩] 1 2 with
      | .error e => .error e
      | .ok (child, j) =>
        parse_map_aux 5 [⟨0, "k:", 1⟩, ⟨2, "a: 1", 2⟩] j 0 [("k", child)] := by
  constructor
  · exact (spec_c2_deferred_map_value 3 [⟨0, "use_worktrees:", 1⟩] 0 0 []
      ⟨0, "use_worktrees:", 1⟩ "use_worktrees" "" rfl rfl rfl rfl rfl).1 (Or.inl rfl)
  · exact (spec_c2_deferred_map_value 5 [⟨0, "k:", 1⟩, ⟨2, "a: 1", 2⟩] 0 0 []
      ⟨0, "k:", 1⟩ "k" "" rfl rfl rfl rfl rfl).2 ⟨2, "a: 1", 2⟩ rfl (by decide)

/-- Witness for C1 at the spec's concrete two-line input. -/
theorem spec_c1_witness :
    parse_list_aux 6 [⟨0, "- a: 1", 1⟩, ⟨4, "b: 2", 2⟩] 0 0 [] =
      .ok ([.map [("a", .int 1), ("b", .int 2)]], 2) := by
  have h := spec_c1_list_item_continuation.2 5 [⟨0, "- a: 1", 1⟩, ⟨4, "b: 2", 2⟩] 0 0 []
    ⟨0, "- a: 1", 1⟩ "a" " 1" ⟨4, "b: 2", 2⟩ rfl rfl rfl (by decide) rfl (by decide)
    rfl (by decide)
  exact h.trans rfl

/-- Witness for C7 exercising all four branches at concrete inputs. -/
theorem spec_c7_witness :
    parse_block 3 ([] : List Token) 0 0 = .ok (.null, 0) ∧
    parse_block 3 [⟨2, "a: 1", 1⟩] 0 0 = .error "Unexpected indentation at line 1." ∧
    parse_block 3 [⟨0, "- x", 1⟩] 0 0 =
      (match parse_list_aux 2 [⟨0, "- x", 1⟩] 0 0 [] with
       | .error e => .error e
       | .ok (items, j) => .ok (.seq items, j)) ∧
    parse_block 3 [⟨0, "a: 1", 1⟩] 0 0 =
      (match parse_map_aux 2 [⟨0, "a: 1", 1⟩] 0 0 [] with
       | .error e => .error e
       | .ok (m, j) => .ok (.map m, j)) := by
  refine ⟨(spec_c7_parse_block 2 [] 0 0).1 (by decide), ?_, ?_, ?_⟩
  · exact (spec_c7_parse_block 2 [⟨2, "a: 1", 1⟩] 0 0).2.1 ⟨2, "a: 1", 1⟩ rfl (by decide)
  · exact (spec_c7_parse_block 2 [⟨0, "- x", 1⟩] 0 0).2.2.1 ⟨0, "- x", 1⟩ rfl rfl rfl
  · exact (spec_c7_parse_block 2 [⟨0, "a: 1", 1⟩] 0 0).2.2.2 ⟨0, "a: 1", 1⟩ rfl rfl rfl


/-- Cursor bounds of the recursive descent: on success the returned
cursor never moves backwards and never exceeds the token count. -/
theorem parse_progress : ∀ fuel : Nat,
    (∀ (tokens : List Token) (idx indent : Nat) (v : Value) (j : Nat),
      parse_block fuel tokens idx indent = .ok (v, j) →
      idx ≤ j ∧ (idx ≤ tokens.length → j ≤ tokens.length)) ∧
    (∀ (tokens : List Token) (idx indent : Nat) (acc m : List (String × Value)) (j : Nat),
      parse_map_aux fuel tokens idx indent acc = .ok (m, j) →
      idx ≤ j ∧ (idx ≤ tokens.length → j ≤ tokens.length)) ∧
    (∀ (tokens : List Token) (idx indent : Nat) (acc l : List Value) (j : Nat),
      parse_list_aux fuel tokens idx indent acc = .ok (l, j) →
      idx ≤ j ∧ (idx ≤ tokens.length → j ≤ tokens.length)) := by
  intro fuel
  induction fuel with
  | zero =>
    refine ⟨?_, ?_, ?_⟩
    · intro tokens idx indent v j h
      exact absurd h (by simp [parse_block])
    · intro tokens idx indent acc m j h
      exact absurd h (by simp [parse_map_aux])
    · intro tokens idx indent acc l j h
      exact absurd h (by simp [parse_list_aux])
  | succ fuel ih =>
    obtain ⟨ihb, ihm, ihl⟩ := ih
    have cont : ∀ (tokens : List Token) (idx2 indent : Nat) (acc : List Value)
        (item : List (String × Value)) (l : List Value) (j : Nat),
        ((match tokens.get? idx2 with
         | some t3 =>
           if t3.indent > indent then
             match parse_map_aux fuel tokens idx2 t3.indent [] with
             | Except.error e => Except.error e
             | Except.ok (child, j2) =>
               parse_list_aux fuel tokens j2 indent
                 (acc ++ [Value.map (pyDictUpdate item child)])
           else parse_list_aux fuel tokens idx2 indent (acc ++ [Value.map item])
         | none => parse_list_aux fuel tokens idx2 indent (acc ++ [Value.map item])) :
           Except String (List Value × Nat)) = .ok (l, j) →
        idx2 ≤ j ∧ (idx2 ≤ tokens.length → j ≤ tokens.length) := by
      intro tokens idx2 indent acc item l j h
      cases hg2 : tokens.get? idx2 with
      | none =>
        simp only [hg2] at h
        exact ihl tokens idx2 indent _ l j h
      | some t3 =>
        simp only [hg2] at h
        by_cases hgt : t3.indent > indent
        · rw [if_pos hgt] at h
          cases hm : parse_map_aux fuel tokens idx2 t3.indent [] with
          | error e => simp only [hm] at h; exact absurd h (by simp)
          | ok p =>
            obtain ⟨child, j2⟩ := p
            simp only [hm] at h
            have h1 := ihm tokens idx2 t3.indent [] child j2 hm
            have h2 := ihl tokens j2 indent _ l j h
            exact ⟨Nat.le_trans h1.1 h2.1, fun hl => h2.2 (h1.2 hl)⟩
        · rw [if_neg hgt] at h
          exact ihl tokens idx2 indent _ l j h
    refine ⟨?_, ?_, ?_⟩
    · intro tokens idx indent v j h
      rw [parse_block] at h
      cases hg : tokens.get? idx with
      | none =>
        simp only [hg] at h
        simp only [Except.ok.injEq, Prod.mk.injEq] at h
        obtain ⟨-, rfl⟩ := h
        exact ⟨Nat.le_refl idx, fun hl => hl⟩
      | some t =>
        simp only [hg] at h
        by_cases hne : t.indent ≠ indent
        · rw [if_pos hne] at h
          exact absurd h (by simp)
        · rw [if_neg hne] at h
          by_cases hsw : pyStartsWith t.content "- " = true
          · rw [if_pos hsw] at h
            cases hl : parse_list_aux fuel tokens idx indent [] with
            | error e => simp only [hl] at h; exact absurd h (by simp)
            | ok p =>
              obtain ⟨items, j1⟩ := p
              simp only [hl] at h
              simp only [Except.ok.injEq, Prod.mk.injEq] at h
              obtain ⟨-, rfl⟩ := h
              exact ihl tokens idx indent [] items j1 hl
          · rw [if_neg hsw] at h
            cases hm : parse_map_aux fuel tokens idx indent [] with
            | error e => simp only [hm] at h; exact absurd h (by simp)
            | ok p =>
              obtain ⟨m, j1⟩ := p
              simp only [hm] at h
              simp only [Except.ok.injEq, Prod.mk.injEq] at h
              obtain ⟨-, rfl⟩ := h
              exact ihm tokens idx indent [] m j1 hm
    · intro tokens idx indent acc m j h
      rw [parse_map_aux] at h
      cases hg : tokens.get? idx with
      | none =>
        simp only [hg] at h
        simp only [Except.ok.injEq, Prod.mk.injEq] at h
        obtain ⟨-, rfl⟩ := h
        exact ⟨Nat.le_refl idx, fun hl => hl⟩
      | some t =>
        simp only [hg] at h
        have hlt : idx < tokens.length := by
          have := List.get?_eq_some.mp hg
          exact this.1
        by_cases hne : t.indent ≠ indent
        · rw [if_pos hne] at h
          simp only [Except.ok.injEq, Prod.mk.injEq] at h
          obtain ⟨-, rfl⟩ := h
          exact ⟨Nat.le_refl idx, fun hl => hl⟩
        · rw [if_neg hne] at h
          by_cases hsw : pyStartsWith t.content "- " = true
          · rw [if_pos hsw] at h
            exact absurd h (by simp)
          · rw [if_neg (by simp [hsw] : ¬ (pyStartsWith t.content "- " = true))] at h
            cases hp : pyPartition t.content ':' with
            | none => simp only [hp] at h; exact absurd h (by simp)
            | some p =>
              obtain ⟨k, v⟩ := p
              simp only [hp] at h
              by_cases hv : lstripSp v ≠ ""
              · rw [if_pos hv] at h
                have h1 := ihm tokens (idx + 1) indent _ m j h
                exact ⟨by omega, fun hl => h1.2 (by omega)⟩
              · rw [if_neg hv] at h
                cases hg2 : tokens.get? (idx + 1) with
                | none =>
                  simp only [hg2] at h
                  have h1 := ihm tokens (idx + 1) indent _ m j h
                  exact ⟨by omega, fun hl => h1.2 (by omega)⟩
                | some t2 =>
                  simp only [hg2] at h
                  by_cases hle : t2.indent ≤ indent
                  · rw [if_pos hle] at h
                    have h1 := ihm tokens (idx + 1) indent _ m j h
                    exact ⟨by omega, fun hl => h1.2 (by omega)⟩
                  · rw [if_neg hle] at h
                    cases hb : parse_block fuel tokens (idx + 1) t2.indent with
                    | error e => simp only [hb] at h; exact absurd h (by simp)
                    | ok p2 =>
                      obtain ⟨child, j1⟩ := p2
                      simp only [hb] at h
                      have h1 := ihb tokens (idx + 1) t2.indent child j1 hb
                      have h2 := ihm tokens j1 indent _ m j h
                      exact ⟨by omega, fun hl => h2.2 (h1.2 (by omega))⟩
    · intro tokens idx indent acc l j h
      rw [parse_list_aux] at h
      cases hg : tokens.get? idx with
      | none =>
        simp only [hg] at h
        simp only [Except.ok.injEq, Prod.mk.injEq] at h
        obtain ⟨-, rfl⟩ := h
        exact ⟨Nat.le_refl idx, fun hl => hl⟩
      | some t =>
        simp only [hg] at h
        have hlt : idx < tokens.length := by
          have := List.get?_eq_some.mp hg
          exact this.1
        by_cases hne : t.indent ≠ indent
        · rw [if_pos hne] at h
          simp only [Except.ok.injEq, Prod.mk.injEq] at h
          obtain ⟨-, rfl⟩ := h
          exact ⟨Nat.le_refl idx, fun hl => hl⟩
        · rw [if_neg hne] at h
          by_cases hsw : pyStartsWith t.content "- " = false
          · rw [if_pos hsw] at h
            simp only [Except.ok.injEq, Prod.mk.injEq] at h
            obtain ⟨-, rfl⟩ := h
            exact ⟨Nat.le_refl idx, fun hl => hl⟩
          · rw [if_neg hsw] at h
            by_cases hec : pyDrop2 t.content = ""
            · rw [if_pos hec] at h
              cases hg2 : tokens.get? (idx + 1) with
              | none =>
                simp only [hg2] at h
                have h1 := ihl tokens (idx + 1) indent _ l j h
                exact ⟨by omega, fun hl => h1.2 (by omega)⟩
              | some t2 =>
                simp only [hg2] at h
                by_cases hle : t2.indent ≤ indent
                · rw [if_pos hle] at h
                  have h1 := ihl tokens (idx + 1) indent _ l j h
                  exact ⟨by omega, fun hl => h1.2 (by omega)⟩
                · rw [if_neg hle] at h
                  cases hb : parse_block fuel tokens (idx + 1) t2.indent with
                  | error e => simp only [hb] at h; exact absurd h (by simp)
                  | ok p2 =>
                    obtain ⟨child, j1⟩ := p2
                    simp only [hb] at h
                    have h1 := ihb tokens (idx + 1) t2.indent child j1 hb
                    have h2 := ihl tokens j1 indent _ l j h
                    exact ⟨by omega, fun hl => h2.2 (h1.2 (by omega))⟩
            · rw [if_neg hec] at h
              cases hp : pyPartition (pyDrop2 t.content) ':' with
              | none =>
                simp only [hp] at h
                have h1 := ihl tokens (idx + 1) indent _ l j h
                exact ⟨by omega, fun hl => h1.2 (by omega)⟩
              | some p =>
                obtain ⟨k, v⟩ := p
                simp only [hp] at h
                by_cases hv : pyStrip v ≠ ""
                · rw [if_pos hv] at h
                  have h1 := cont tokens (idx + 1) indent acc
                    [(pyStrip k, parse_scalar (pyStrip v))] l j h
                  exact ⟨by omega, fun hl => h1.2 (by omega)⟩
                · rw [if_neg hv] at h
                  cases hg2 : tokens.get? (idx + 1) with
                  | none =>
                    simp only [hg2] at h
                    have h1 := ihl tokens (idx + 1) indent _ l j h
                    exact ⟨by omega, fun hl => h1.2 (by omega)⟩
                  | some t2 =>
                    simp only [hg2] at h
                    by_cases hgt : t2.indent > indent
                    · rw [if_pos hgt] at h
                      cases hb : parse_block fuel tokens (idx + 1) t2.indent with
                      | error e => simp only [hb] at h; exact absurd h (by simp)
                      | ok p2 =>
                        obtain ⟨child, jb⟩ := p2
                        simp only [hb] at h
                        have h0 := ihb tokens (idx + 1) t2.indent child jb hb
                        have h1 := cont tokens jb indent acc
                          [(pyStrip k, child)] l j h
                        exact ⟨by omega, fun hl => h1.2 (h0.2 (by omega))⟩
                    · rw [if_neg hgt] at h
                      have h1 := cont tokens (idx + 1) indent acc
                        [(pyStrip k, Value.null)] l j h
                      exact ⟨by omega, fun hl => h1.2 (by omega)⟩


/-- Cursor bounds for the continuation step of a list item: merging
sibling keys can only advance the cursor, staying within the token
count. -/
theorem parse_list_cont_le (fuel : Nat) (tokens : List Token) (idx2 indent : Nat)
    (acc : List Value) (item : List (String × Value)) (l : List Value) (j : Nat)
    (h : ((match tokens.get? idx2 with
         | some t3 =>
           if t3.indent > indent then
             match parse_map_aux fuel tokens idx2 t3.indent [] with
             | Except.error e => Except.error e
             | Except.ok (child, j2) =>
               parse_list_aux fuel tokens j2 indent
                 (acc ++ [Value.map (pyDictUpdate item child)])
           else parse_list_aux fuel tokens idx2 indent (acc ++ [Value.map item])
         | none => parse_list_aux fuel tokens idx2 indent (acc ++ [Value.map item])) :
           Except String (List Value × Nat)) = .ok (l, j)) :
    idx2 ≤ j ∧ (idx2 ≤ tokens.length → j ≤ tokens.length) := by
  cases hg2 : tokens.get? idx2 with
  | none =>
    simp only [hg2] at h
    exact (parse_progress fuel).2.2 tokens idx2 indent _ l j h
  | some t3 =>
    simp only [hg2] at h
    by_cases hgt : t3.indent > indent
    · rw [if_pos hgt] at h
      cases hm : parse_map_aux fuel tokens idx2 t3.indent [] with
      | error e =>
        simp only [hm] at h
        exact absurd h (by simp)
      | ok p =>
        obtain ⟨child, j2⟩ := p
        simp only [hm] at h
        have h1 := (parse_progress fuel).2.1 tokens idx2 t3.indent [] child j2 hm
        have h2 := (parse_progress fuel).2.2 tokens j2 indent _ l j h
        exact ⟨Nat.le_trans h1.1 h2.1, fun hl => h2.2 (h1.2 hl)⟩
    · rw [if_neg hgt] at h
      exact (parse_progress fuel).2.2 tokens idx2 indent _ l j h

/-- C8 (amended): the Map Parser and the List Parser stop consuming
exactly when the stream is exhausted or the cursor token's indent
differs from the expected indent (not only when it is smaller), the
List Parser additionally stopping at a token at the expected indent
whose content does not start with the sequence marker; each then
returns its accumulated collection with the final cursor, and whenever
the stopping condition fails the parser strictly advances the
cursor. -/
theorem spec_c8_amended (fuel : Nat) (tokens : List Token) (idx indent : Nat) :
    (∀ (acc : List (String × Value)),
      (tokens.length ≤ idx ∨ ∀ t, tokens.get? idx = some t → t.indent ≠ indent) →
      parse_map_aux (fuel + 1) tokens idx indent acc = .ok (acc, idx)) ∧
    (∀ (acc : List Value),
      (tokens.length ≤ idx ∨
        ∀ t, tokens.get? idx = some t →
          (t.indent ≠ indent ∨ pyStartsWith t.content "- " = false)) →
      parse_list_aux (fuel + 1) tokens idx indent acc = .ok (acc, idx)) ∧
    (∀ (acc m : List (String × Value)) (j : Nat) (t : Token),
      tokens.get? idx = some t → t.indent = indent →
      parse_map_aux (fuel + 1) tokens idx indent acc = .ok (m, j) → idx < j) ∧
    (∀ (acc l : List Value) (j : Nat) (t : Token),
      tokens.get? idx = some t → t.indent = indent →
      pyStartsWith t.content "- " = true →
      parse_list_aux (fuel + 1) tokens idx indent acc = .ok (l, j) → idx < j) := by
  refine ⟨?_, ?_, ?_, ?_⟩
  · intro acc hstop
    cases hg : tokens.get? idx with
    | none =>
      rw [parse_map_aux, hg]
    | some t =>
      rcases hstop with hlen | hne
      · rw [List.get?_eq_none.mpr hlen] at hg
        exact Option.noConfusion hg
      · simp only [parse_map_aux, hg]
        rw [if_pos (hne t hg)]
  · intro acc hstop
    cases hg : tokens.get? idx with
    | none =>
      rw [parse_list_aux, hg]
    | some t =>
      rcases hstop with hlen | hcond
      · rw [List.get?_eq_none.mpr hlen] at hg
        exact Option.noConfusion hg
      · simp only [parse_list_aux, hg]
        rcases hcond t hg with hne | hsw
        · rw [if_pos hne]
        · by_cases hne : t.indent ≠ indent
          · rw [if_pos hne]
          · rw [if_neg hne, if_pos hsw]
  · intro acc m j t hg he h
    rw [parse_map_aux] at h
    simp only [hg] at h
    rw [if_neg (fun hc => hc he)] at h
    have hlt : idx < tokens.length := (List.get?_eq_some.mp hg).1
    by_cases hsw : pyStartsWith t.content "- " = true
    · rw [if_pos hsw] at h
      exact absurd h (by simp)
    · rw [if_neg hsw] at h
      cases hp : pyPartition t.content ':' with
      | none =>
        simp only [hp] at h
        exact absurd h (by simp)
      | some p =>
        obtain ⟨k, v⟩ := p
        simp only [hp] at h
        by_cases hv : lstripSp v ≠ ""
        · rw [if_pos hv] at h
          have h1 := (parse_progress fuel).2.1 tokens (idx + 1) indent _ m j h
          omega
        · rw [if_neg hv] at h
          cases hg2 : tokens.get? (idx + 1) with
          | none =>
            simp only [hg2] at h
            have h1 := (parse_progress fuel).2.1 tokens (idx + 1) indent _ m j h
            omega
          | some t2 =>
            simp only [hg2] at h
            by_cases hle : t2.indent ≤ indent
            · rw [if_pos hle] at h
              have h1 := (parse_progress fuel).2.1 tokens (idx + 1) indent _ m j h
              omega
            · rw [if_neg hle] at h
              cases hb : parse_block fuel tokens (idx + 1) t2.indent with
              | error e =>
                simp only [hb] at h
                exact absurd h (by simp)
              | ok p2 =>
                obtain ⟨child, j1⟩ := p2
                simp only [hb] at h
                have h0 := (parse_progress fuel).1 tokens (idx + 1) t2.indent child j1 hb
                have h1 := (parse_progress fuel).2.1 tokens j1 indent _ m j h
                omega
  · intro acc l j t hg he hsw h
    rw [parse_list_aux] at h
    simp only [hg] at h
    rw [if_neg (fun hc => hc he), if_neg (by simp [hsw])] at h
    have hlt : idx < tokens.length := (List.get?_eq_some.mp hg).1
    by_cases hec : pyDrop2 t.content = ""
    · rw [if_pos hec] at h
      cases hg2 : tokens.get? (idx + 1) with
      | none =>
        simp only [hg2] at h
        have h1 := (parse_progress fuel).2.2 tokens (idx + 1) indent _ l j h
        omega
      | some t2 =>
        simp only [hg2] at h
        by_cases hle : t2.indent ≤ indent
        · rw [if_pos hle] at h
          have h1 := (parse_progress fuel).2.2 tokens (idx + 1) indent _ l j h
          omega
        · rw [if_neg hle] at h
          cases hb : parse_block fuel tokens (idx + 1) t2.indent with
          | error e =>
            simp only [hb] at h
            exact absurd h (by simp)
          | ok p2 =>
            obtain ⟨child, j1⟩ := p2
            simp only [hb] at h
            have h0 := (parse_progress fuel).1 tokens (idx + 1) t2.indent child j1 hb
            have h1 := (parse_progress fuel).2.2 tokens j1 indent _ l j h
            omega
    · rw [if_neg hec] at h
      cases hp : pyPartition (pyDrop2 t.content) ':' with
      | none =>
        simp only [hp] at h
        have h1 := (parse_progress fuel).2.2 tokens (idx + 1) indent _ l j h
        omega
      | some p =>
        obtain ⟨k, v⟩ := p
        simp only [hp] at h
        by_cases hv : pyStrip v ≠ ""
        · rw [if_pos hv] at h
          have h1 := parse_list_cont_le fuel tokens (idx + 1) indent acc
            [(pyStrip k, parse_scalar (pyStrip v))] l j h
          omega
        · rw [if_neg hv] at h
          cases hg2 : tokens.get? (idx + 1) with
          | none =>
            simp only [hg2] at h
            have h1 := (parse_progress fuel).2.2 tokens (idx + 1) indent _ l j h
            omega
          | some t2 =>
            simp only [hg2] at h
            by_cases hgt : t2.indent > indent
            · rw [if_pos hgt] at h
              cases hb : parse_block fuel tokens (idx + 1) t2.indent with
              | error e =>
                simp only [hb] at h
                exact absurd h (by simp)
              | ok p2 =>
                obtain ⟨child, jb⟩ := p2
                simp only [hb] at h
                have h0 := (parse_progress fuel).1 tokens (idx + 1) t2.indent child jb hb
                have h1 := parse_list_cont_le fuel tokens jb indent acc
                  [(pyStrip k, child)] l j h
                omega
            · rw [if_neg hgt] at h
              have h1 := parse_list_cont_le fuel tokens (idx + 1) indent acc
                [(pyStrip k, Value.null)] l j h
              omega

/-- C8 counterexample: the Map Parser stops at cursor 1 where a token
exists whose indent 2 is greater than, not less than, the expected
indent 0, refuting the claim that stopping happens exactly on smaller
indent or exhaustion. -/
theorem spec_c8_counterexample :
    parse_map_aux 5 [⟨0, "a: 1", 1⟩, ⟨2, "b: 2", 2⟩] 0 0 [] = .ok ([("a", .int 1)], 1) ∧
    [(⟨0, "a: 1", 1⟩ : Token), ⟨2, "b: 2", 2⟩].get? 1 = some ⟨2, "b: 2", 2⟩ ∧
    ¬ ((2 : Nat) < 0) ∧ (1 : Nat) ≠ [(⟨0, "a: 1", 1⟩ : Token), ⟨2, "b: 2", 2⟩].length :=
  ⟨rfl, rfl, by decide, by decide⟩

/-- Witness for C8: stop cases for both parsers and a strict cursor
advance. -/
theorem spec_c8_witness :
    parse_map_aux 3 [⟨2, "x: 1", 1⟩] 0 0 [] = .ok ([], 0) ∧
    parse_list_aux 3 [⟨0, "x: 1", 1⟩] 0 0 [] = .ok ([], 0) ∧
    (0 : Nat) < 1 := by
  refine ⟨?_, ?_, ?_⟩
  · exact (spec_c8_amended 2 [⟨2, "x: 1", 1⟩] 0 0).1 []
      (Or.inr (fun t ht => by
        have h2 : some (⟨2, "x: 1", 1⟩ : Token) = some t := ht
        cases h2
        decide))
  · exact (spec_c8_amended 2 [⟨0, "x: 1", 1⟩] 0 0).2.1 []
      (Or.inr (fun t ht => by
        have h2 : some (⟨0, "x: 1", 1⟩ : Token) = some t := ht
        cases h2
        right
        decide))
  · exact (spec_c8_amended 4 [⟨0, "a: 1", 1⟩, ⟨2, "b: 2", 2⟩] 0 0).2.2.1 []
      [("a", .int 1)] 1 ⟨0, "a: 1", 1⟩ rfl rfl rfl

/-- C9: the input consisting solely of a one-element sequence item
parses to a Sequence with one String element, and the top-level-Mapping
requirement is enforced after the block parse returns: any non-Mapping
top-level result is rejected with the must-be-a-mapping error rather
than a parser-internal failure. -/
theorem spec_c9_top_level_mapping :
    tokenize "- x" = .ok [⟨0, "- x", 1⟩] ∧
    parse_block 4 [⟨0, "- x", 1⟩] 0 0 = .ok (.seq [.str "x"], 1) ∧
    parse_yaml_minimal "- x" = .error "Brief YAML must be a mapping at the top level." ∧
    (∀ (text : String) (t0 : Token) (rest : List Token) (d : Value),
      tokenize text = .ok (t0 :: rest) →
      parse_block (fuelFor (t0 :: rest)) (t0 :: rest) 0 t0.indent =
        .ok (d, (t0 :: rest).length) →
      (∀ m, d ≠ .map m) →
      parse_yaml_minimal text = .error "Brief YAML must be a mapping at the top level.") := by
  refine ⟨rfl, rfl, rfl, ?_⟩
  intro text t0 rest d htok hpb hd
  simp only [parse_yaml_minimal, htok, hpb]
  rw [if_neg (fun hc => hc rfl)]

/-- Witness for C9 at the concrete top-level sequence input. -/
theorem spec_c9_witness :
    parse_yaml_minimal "- x" = .error "Brief YAML must be a mapping at the top level." :=
  spec_c9_top_level_mapping.2.2.2 "- x" ⟨0, "- x", 1⟩ [] (.seq [.str "x"]) rfl rfl
    (fun _ h => Value.noConfusion h)

/-- C10: when the top-level block parse returns without consuming every
token, parsing fails with the unexpected-content error citing the
1-based source line of the first unconsumed token; consequently a
successful parse consumes every token. -/
theorem spec_c10_leftover_tokens :
    ∀ (text : String) (t0 : Token) (rest : List Token) (d : Value) (next : Nat),
      tokenize text = .ok (t0 :: rest) →
      parse_block (fuelFor (t0 :: rest)) (t0 :: rest) 0 t0.indent = .ok (d, next) →
      ((next ≠ (t0 :: rest).length →
        ∃ t, (t0 :: rest).get? next = some t ∧
          parse_yaml_minimal text =
            .error ("Unexpected content at line " ++ toString t.line ++ ".")) ∧
       ((∃ v, parse_yaml_minimal text = .ok v) → next = (t0 :: rest).length)) := by
  intro text t0 rest d next htok hpb
  have hbound := (parse_progress (fuelFor (t0 :: rest))).1 (t0 :: rest) 0 t0.indent d next hpb
  have part1 : next ≠ (t0 :: rest).length →
      ∃ t, (t0 :: rest).get? next = some t ∧
        parse_yaml_minimal text =
          .error ("Unexpected content at line " ++ toString t.line ++ ".") := by
    intro hne
    have hlt : next < (t0 :: rest).length := by
      have := hbound.2 (Nat.zero_le _)
      omega
    obtain ⟨t, ht⟩ : ∃ t, (t0 :: rest).get? next = some t := by
      cases hg : (t0 :: rest).get? next with
      | none => exact absurd (List.get?_eq_none.mp hg) (by omega)
      | some t => exact ⟨t, rfl⟩
    refine ⟨t, ht, ?_⟩
    simp only [parse_yaml_minimal, htok, hpb]
    rw [if_pos hne]
    simp only [ht]
  refine ⟨part1, ?_⟩
  rintro ⟨v, hv⟩
  by_contra hne
  obtain ⟨t, ht, herr⟩ := part1 hne
  rw [herr] at hv
  exact absurd hv (by simp)

/-- Witness for C10 at an input whose second token is indented deeper
than the top level. -/
theorem spec_c10_witness :
    parse_yaml_minimal "a: 1\n  b: 2" = .error "Unexpected content at line 2." := by
  obtain ⟨t, ht, herr⟩ :=
    (spec_c10_leftover_tokens "a: 1\n  b: 2" ⟨0, "a: 1", 1⟩ [⟨2, "b: 2", 2⟩]
      (.map [("a", .int 1)]) 1 rfl rfl).1 (by decide)
  have h2 : some (⟨2, "b: 2", 2⟩ : Token) = some t := ht
  cases h2
  exact herr

end BuildSystem
